import Mathlib

/-!
Verification of the interview-flow controller in `chatbot/interview_chat.py`.

Python strings are embedded as lists of characters (`Str`).  The two hosted
model calls inside `generate_questions` and `evaluate_answer` are opaque
collaborators, so both functions are embedded as functions of the model
response text(s): every piece of string post-processing (splitting on
newlines, stripping, lower-casing, substring scanning, `str.replace`) is
translated directly from the source.
-/

namespace Interviewer

/-- Python strings are modelled as lists of characters. -/
abbrev Str := List Char

/-- Boolean test that `p` is a leading segment of `s`
(Python `str.startswith`). -/
def isPrefixB : Str → Str → Bool
  | [], _ => true
  | _ :: _, [] => false
  | a :: as, b :: bs => a = b && isPrefixB as bs

/-- Boolean substring containment (Python `in` on strings). -/
def containsSub (pat : Str) : Str → Bool
  | [] => isPrefixB pat []
  | c :: rest => isPrefixB pat (c :: rest) || containsSub pat rest

/-- Python `str.lower`, character by character. -/
def lowerStr (s : Str) : Str := s.map Char.toLower

/-- Drop the longest run of characters satisfying `p` from the right end. -/
def dropRightWhile (p : Char → Bool) (s : Str) : Str :=
  (s.reverse.dropWhile p).reverse

/-- Python `str.strip(chars)`: remove characters satisfying `p` from both
ends. -/
def stripWith (p : Char → Bool) (s : Str) : Str :=
  dropRightWhile p (s.dropWhile p)

/-- Python `str.strip()` with no argument: strip whitespace from both ends. -/
def pyStrip (s : Str) : Str := stripWith Char.isWhitespace s

/-- The character set of the literal `"12345. "` passed to `str.strip` in
`generate_questions`. -/
def numDotSpace (c : Char) : Bool :=
  c = '1' || c = '2' || c = '3' || c = '4' || c = '5' || c = '.' || c = ' '

/-- Python `line.strip("12345. ")` from `generate_questions`. -/
def stripNum (s : Str) : Str := stripWith numDotSpace s

/-- Python `content.split("\n")`.  Splitting the tail never yields an
empty list of pieces, so prepending the current character to the first
piece via `headI`/`tail` is the faithful translation. -/
def splitOnNl : Str → List Str
  | [] => [[]]
  | c :: rest =>
    let ls := splitOnNl rest
    if c = '\n' then [] :: ls else (c :: ls.headI) :: ls.tail

/-- Fuel-driven worker for `removeAll`; the fuel is always at least the
length of the string plus one, so the first branch is never taken on the
calls made by `removeAll`. -/
def removeAllF : Nat → Str → Str → Str
  | 0, _, s => s
  | _ + 1, _, [] => []
  | f + 1, pat, c :: rest =>
    if 0 < pat.length ∧ isPrefixB pat (c :: rest) = true then
      removeAllF f pat ((c :: rest).drop pat.length)
    else
      c :: removeAllF f pat rest

/-- Python `s.replace(pat, "")`: remove every (left-to-right,
non-overlapping) occurrence of `pat` from `s`. -/
def removeAll (pat s : Str) : Str := removeAllF (s.length + 1) pat s

/-- Clean one line of the question-generation model response:
`line.strip("12345. ").strip()` from `generate_questions`. -/
def cleanLine (line : Str) : Str := pyStrip (stripNum line)

/-- The accumulation loop over lines in `generate_questions`: keep each
cleaned line that is non-empty. -/
def collectQuestions : List Str → List Str
  | [] => []
  | line :: rest =>
    if cleanLine line = [] then collectQuestions rest
    else cleanLine line :: collectQuestions rest

/-- The structured resume record (`ResumeSchema` in the source). -/
structure ResumeRec where
  name : Str
  summary : Str
  experience_years : Int
  skills : List Str
  links : List Str
  projects : List Str
deriving DecidableEq

/-- The dictionary returned by the `generate_questions` node. -/
structure GQResult where
  questions : List Str
  current_index : Nat
  answers : List Str
  strengths : List Str
  weaknesses : List Str
  messages : List Str
deriving DecidableEq

/-- The parsing and state-building part of `generate_questions`, as a
function of the model response text.  The Python indexes `questions[0]`
before slicing with `questions[:5]`; an empty parse makes that lookup raise
`IndexError`, modelled as `none`. -/
def generate_questions (content : Str) : Option GQResult :=
  let questions := collectQuestions (splitOnNl content)
  match questions with
  | [] => none
  | q0 :: _ => some ⟨questions.take 5, 0, [], [], [], [q0]⟩

/-- The interview session state (`InterviewState` in the source). -/
structure InterviewState where
  resume : ResumeRec
  questions : List Str
  current_index : Nat
  answers : List Str
  strengths : List Str
  weaknesses : List Str
  messages : List Str
deriving DecidableEq

/-- The three values accumulated by the line scan in `evaluate_answer`. -/
structure EvalParse where
  strength : Str
  weakness : Str
  followup : Bool
deriving DecidableEq

/-- The dictionary returned by `evaluate_answer`: `current_index?` is
`none` when the returned dictionary carries no `"current_index"` key
(the follow-up branch). -/
structure EvalReturn where
  current_index? : Option Nat
  messages : List Str
deriving DecidableEq

/-- The label literals scanned for in `evaluate_answer`. -/
def strengthLbl : Str := "strength".data

/-- The literal removed from a strength line by `str.replace`. -/
def strengthColon : Str := "strength:".data

/-- The label literal for weakness lines. -/
def weaknessLbl : Str := "weakness".data

/-- The literal removed from a weakness line by `str.replace`. -/
def weaknessColon : Str := "weakness:".data

/-- The follow-up trigger substring scanned for in `evaluate_answer`. -/
def followupPat : Str := "followup: yes".data

/-- The terminal message emitted when the questions are exhausted. -/
def interviewComplete : Str := "Interview complete.".data

/-- One iteration of the line-scanning loop in `evaluate_answer`:
overwrite `strength` and `weakness` on matching lines and latch
`followup` when the trigger substring occurs. -/
def scanLine (acc : EvalParse) (line : Str) : EvalParse :=
  { strength :=
      if isPrefixB strengthLbl line then pyStrip (removeAll strengthColon line)
      else acc.strength
    weakness :=
      if isPrefixB weaknessLbl line then pyStrip (removeAll weaknessColon line)
      else acc.weakness
    followup := acc.followup || containsSub followupPat line }

/-- The whole line scan of `evaluate_answer` over the (already
lower-cased) evaluation response. -/
def parseEval (content : Str) : EvalParse :=
  (splitOnNl content).foldl scanLine ⟨[], [], false⟩

/-- The two `if strength: ... if weakness: ...` in-place appends of
`evaluate_answer`. -/
def appendFindings (p : EvalParse) (state : InterviewState) : InterviewState :=
  let state1 :=
    if p.strength = [] then state
    else { state with strengths := state.strengths ++ [p.strength] }
  if p.weakness = [] then state1
  else { state1 with weaknesses := state1.weaknesses ++ [p.weakness] }

/-- The `evaluate_answer` node, as a function of the session state, the
evaluation model response and the follow-up model response.  The Python
first evaluates `answers[-1]` and `questions[idx]` (inside the prompt
f-string); an empty answer list or an out-of-range index raises
`IndexError`, modelled as `none`.  The returned pair is the session state
after the in-place appends to `strengths`/`weaknesses`, together with the
returned dictionary. -/
def evaluate_answer (state : InterviewState) (response followup_response : Str) :
    Option (InterviewState × EvalReturn) :=
  if state.answers = [] ∨ state.questions.length ≤ state.current_index then
    none
  else
    let content := lowerStr response
    let p := parseEval content
    let state2 := appendFindings p state
    if p.followup then
      some (state2, ⟨none, [pyStrip followup_response]⟩)
    else
      let idx := state.current_index + 1
      if state.questions.length ≤ idx then
        some (state2, ⟨some idx, [interviewComplete]⟩)
      else
        some (state2, ⟨some idx, [state.questions.getD idx []]⟩)

/-- Merging the dictionary returned by `evaluate_answer` back into the
loop state of `run_interview` (`idx = result["current_index"]` when the
key is present). -/
def applyRet (s : InterviewState) (ret : EvalReturn) : InterviewState :=
  match ret.current_index? with
  | none => s
  | some i => { s with current_index := i }

/-- The session state assembled by `run_interview` right after the
question-generation node has run. -/
def initState (resume : ResumeRec) (gq : GQResult) : InterviewState :=
  ⟨resume, gq.questions, 0, [], [], [], []⟩

/-- The lower-cased sentinel scanned for by `run_interview` to stop. -/
def completeSentinel : Str := "interview complete".data

/-- One iteration of the `run_interview` loop: append the candidate's
answer, run `evaluate_answer` with some pair of model responses, and merge
the returned index.  The paired list records the outbound messages of the
iteration (`result["messages"]`). -/
def LoopStep (p q : InterviewState × List Str) : Prop :=
  ∃ (ans resp fresp : Str) (s' : InterviewState) (ret : EvalReturn),
    evaluate_answer { p.1 with answers := p.1.answers ++ [ans] } resp fresp
        = some (s', ret) ∧
    q = (applyRet s' ret, ret.messages)

/-- Session states reachable by `run_interview`: the initial state built
from any successful `generate_questions` parse, closed under loop
iterations with arbitrary candidate answers and model responses (a
superset of the runs the CLI loop performs, since its early `break`s only
remove iterations). -/
inductive Reach : InterviewState × List Str → Prop
  | init (resume : ResumeRec) (content : Str) (gq : GQResult)
      (h : generate_questions content = some gq) :
      Reach (initState resume gq, gq.messages)
  | step (p q : InterviewState × List Str) (hp : Reach p) (hq : LoopStep p q) :
      Reach q

/-! ## Basic facts about the string primitives -/

theorem isPrefixB_iff (p s : Str) : isPrefixB p s = true ↔ ∃ t, s = p ++ t := by
  induction p generalizing s with
  | nil => simp [isPrefixB]
  | cons a as ih =>
    cases s with
    | nil => simp [isPrefixB]
    | cons b bs =>
      simp only [isPrefixB, Bool.and_eq_true, decide_eq_true_eq, ih,
        List.cons_append, List.cons.injEq]
      constructor
      · rintro ⟨rfl, t, rfl⟩; exact ⟨t, rfl, rfl⟩
      · rintro ⟨t, rfl, rfl⟩; exact ⟨rfl, t, rfl⟩

theorem isPrefixB_append (p t : Str) : isPrefixB p (p ++ t) = true :=
  (isPrefixB_iff p (p ++ t)).mpr ⟨t, rfl⟩

theorem containsSub_iff (p s : Str) :
    containsSub p s = true ↔ ∃ u v, s = u ++ p ++ v := by
  induction s with
  | nil =>
    simp only [containsSub, isPrefixB_iff]
    constructor
    · rintro ⟨t, ht⟩
      exact ⟨[], t, ht⟩
    · rintro ⟨u, v, huv⟩
      rcases List.append_eq_nil.mp (List.append_eq_nil.mp huv.symm).1 with ⟨rfl, rfl⟩
      exact ⟨v, huv⟩
  | cons c rest ih =>
    simp only [containsSub, Bool.or_eq_true, isPrefixB_iff, ih]
    constructor
    · rintro (⟨t, ht⟩ | ⟨u, v, huv⟩)
      · exact ⟨[], t, by simp [ht]⟩
      · exact ⟨c :: u, v, by simp [huv]⟩
    · rintro ⟨u, v, huv⟩
      cases u with
      | nil => exact Or.inl ⟨v, by simpa using huv⟩
      | cons x u' =>
        simp only [List.cons_append, List.cons.injEq] at huv
        exact Or.inr ⟨u', v, huv.2⟩

theorem containsSub_cons (p : Str) (c : Char) (t : Str)
    (h : containsSub p t = true) : containsSub p (c :: t) = true := by
  simp [containsSub, h]

/-- A pattern that avoids the character `c` cannot straddle an occurrence
of `c`: if it leads `y ++ c :: b` then it already leads `y`. -/
theorem isPrefixB_before_sep (p : Str) (c : Char) (hc : c ∉ p) :
    ∀ (y b : Str), isPrefixB p (y ++ c :: b) = true → isPrefixB p y = true := by
  induction p with
  | nil => intro y b _; simp [isPrefixB_iff]
  | cons q ps ih =>
    intro y b h
    cases y with
    | nil =>
      exfalso
      obtain ⟨t, ht⟩ := (isPrefixB_iff _ _).mp h
      simp only [List.nil_append, List.cons_append, List.cons.injEq] at ht
      exact hc (ht.1 ▸ List.mem_cons_self q ps)
    | cons z y' =>
      obtain ⟨t, ht⟩ := (isPrefixB_iff _ _).mp h
      simp only [List.cons_append, List.cons.injEq] at ht
      obtain ⟨rfl, ht2⟩ := ht
      have hps : isPrefixB ps (y' ++ c :: b) = true :=
        (isPrefixB_iff _ _).mpr ⟨t, ht2⟩
      have := ih (fun hm => hc (List.mem_cons_of_mem _ hm)) y' b hps
      simp [isPrefixB, this]

/-- An occurrence of a pattern avoiding `c` in `a ++ c :: b` lies entirely
inside `a` or entirely inside `b`. -/
theorem containsSub_split (p : Str) (c : Char) (hc : c ∉ p) :
    ∀ (a b : Str), containsSub p (a ++ c :: b) = true →
      containsSub p a = true ∨ containsSub p b = true := by
  intro a
  induction a with
  | nil =>
    intro b h
    simp only [List.nil_append, containsSub, Bool.or_eq_true] at h
    rcases h with h | h
    · cases p with
      | nil => exact Or.inl rfl
      | cons q ps =>
        exfalso
        obtain ⟨t, ht⟩ := (isPrefixB_iff _ _).mp h
        simp only [List.cons_append, List.cons.injEq] at ht
        exact hc (ht.1 ▸ List.mem_cons_self q ps)
    · exact Or.inr h
  | cons x a' ih =>
    intro b h
    simp only [List.cons_append, containsSub, Bool.or_eq_true] at h
    rcases h with h | h
    · have := isPrefixB_before_sep p c hc (x :: a') b (by simpa using h)
      exact Or.inl (by simpa [containsSub] using Or.inl this)
    · rcases ih b h with h' | h'
      · exact Or.inl (containsSub_cons _ _ _ h')
      · exact Or.inr h'

/-- Lower-casing preserves an occurrence of an already lower-case
pattern. -/
theorem containsSub_lowerStr (p s : Str) (hp : lowerStr p = p)
    (h : containsSub p s = true) : containsSub p (lowerStr s) = true := by
  obtain ⟨u, v, rfl⟩ := (containsSub_iff p s).mp h
  refine (containsSub_iff p _).mpr ⟨lowerStr u, lowerStr v, ?_⟩
  have hsplit : lowerStr (u ++ p ++ v) = lowerStr u ++ lowerStr p ++ lowerStr v := by
    simp [lowerStr, List.map_append]
  rw [hsplit, hp]

/-! ## Structure of `splitOnNl` -/

theorem splitOnNl_ne_nil (s : Str) : splitOnNl s ≠ [] := by
  cases s with
  | nil => simp [splitOnNl]
  | cons c rest =>
    by_cases h : c = '\n'
    · simp [splitOnNl, h]
    · simp [splitOnNl, if_neg h]

theorem splitOnNl_no_sep (s : Str) (h : ∀ c ∈ s, c ≠ '\n') :
    splitOnNl s = [s] := by
  induction s with
  | nil => rfl
  | cons c rest ih =>
    have hc : c ≠ '\n' := h c (List.mem_cons_self c rest)
    have := ih (fun x hx => h x (List.mem_cons_of_mem _ hx))
    simp only [splitOnNl, List.append_eq, if_neg hc, this]
    rfl

theorem splitOnNl_sep (a b : Str) (h : ∀ c ∈ a, c ≠ '\n') :
    splitOnNl (a ++ '\n' :: b) = a :: splitOnNl b := by
  induction a with
  | nil => simp [splitOnNl]
  | cons x a' ih =>
    have hx : x ≠ '\n' := h x (List.mem_cons_self x a')
    have := ih (fun c hc => h c (List.mem_cons_of_mem _ hc))
    simp only [List.cons_append, splitOnNl, List.append_eq, if_neg hx, this]
    rfl

/-- Every string either contains no newline or splits at a first
newline. -/
theorem nlDecomp (s : Str) :
    (∀ c ∈ s, c ≠ '\n') ∨
      ∃ a b, s = a ++ '\n' :: b ∧ ∀ c ∈ a, c ≠ '\n' := by
  induction s with
  | nil => exact Or.inl (by simp)
  | cons x s' ih =>
    by_cases hx : x = '\n'
    · exact Or.inr ⟨[], s', by simp [hx], by simp⟩
    · rcases ih with h | ⟨a, b, rfl, ha⟩
      · exact Or.inl (by
          intro c hc
          rcases List.mem_cons.mp hc with rfl | hc'
          · exact hx
          · exact h c hc')
      · refine Or.inr ⟨x :: a, b, by simp, ?_⟩
        intro c hc
        rcases List.mem_cons.mp hc with rfl | hc'
        · exact hx
        · exact ha c hc'

theorem mem_splitOnNl (s l : Str) (h : l ∈ splitOnNl s) :
    ∃ u v, s = u ++ l ++ v := by
  rcases nlDecomp s with hno | ⟨a, b, heq, hano⟩
  · rw [splitOnNl_no_sep s hno] at h
    simp only [List.mem_singleton] at h
    exact ⟨[], [], by simp [h]⟩
  · rw [heq, splitOnNl_sep a b hano] at h
    rcases List.mem_cons.mp h with rfl | hb
    · exact ⟨[], '\n' :: b, by simp [heq]⟩
    · obtain ⟨u, v, huv⟩ := mem_splitOnNl b l hb
      exact ⟨a ++ '\n' :: u, v, by simp [heq, huv]⟩
termination_by s.length
decreasing_by
  simp only [heq, List.length_append, List.length_cons]
  omega

/-- A newline-free substring of `s` occurs inside one of its lines. -/
theorem containsSub_splitOnNl (p s : Str) (hp : '\n' ∉ p)
    (h : containsSub p s = true) :
    ∃ l ∈ splitOnNl s, containsSub p l = true := by
  rcases nlDecomp s with hno | ⟨a, b, heq, hano⟩
  · exact ⟨s, by simp [splitOnNl_no_sep s hno], h⟩
  · rcases containsSub_split p '\n' hp a b (heq ▸ h) with h' | h'
    · exact ⟨a, by simp [heq, splitOnNl_sep a b hano], h'⟩
    · obtain ⟨l, hl, hcl⟩ := containsSub_splitOnNl p b hp h'
      exact ⟨l, by simp [heq, splitOnNl_sep a b hano, hl], hcl⟩
termination_by s.length
decreasing_by
  simp only [heq, List.length_append, List.length_cons]
  omega

/-- Conversely, a substring of one of the lines of `s` is a substring of
`s`. -/
theorem containsSub_of_line (p s l : Str) (hl : l ∈ splitOnNl s)
    (h : containsSub p l = true) : containsSub p s = true := by
  obtain ⟨u, v, rfl⟩ := mem_splitOnNl s l hl
  obtain ⟨x, y, rfl⟩ := (containsSub_iff p l).mp h
  exact (containsSub_iff p _).mpr ⟨u ++ x, y ++ v, by simp⟩

/-! ## Strip lemmas -/

theorem dropWhile_head_false (p : Char → Bool) (s : Str) (c : Char) (t : Str)
    (h : s.dropWhile p = c :: t) : p c = false := by
  induction s with
  | nil => simp [List.dropWhile] at h
  | cons x s' ih =>
    by_cases hx : p x
    · exact ih (by simpa [List.dropWhile, hx] using h)
    · rw [List.dropWhile_cons_of_neg (by simpa using hx)] at h
      cases h
      simpa using hx

theorem dropRightWhile_append (p : Char → Bool) (s : Str) :
    ∃ r, s = dropRightWhile p s ++ r := by
  refine ⟨(s.reverse.takeWhile p).reverse, ?_⟩
  conv_lhs => rw [← List.reverse_reverse s,
    ← List.takeWhile_append_dropWhile p s.reverse]
  rw [List.reverse_append]
  rfl

/-- The first character surviving a two-sided strip fails the stripped
predicate. -/
theorem stripWith_head (p : Char → Bool) (s : Str) (c : Char) (t : Str)
    (h : stripWith p s = c :: t) : p c = false := by
  obtain ⟨r, hr⟩ := dropRightWhile_append p (s.dropWhile p)
  have : s.dropWhile p = c :: (t ++ r) := by
    rw [hr]
    simp [stripWith] at h
    simp [h]
  exact dropWhile_head_false p s c (t ++ r) this

/-! ## Facts about `removeAll` -/

theorem removeAllF_congr (pat : Str) :
    ∀ (f g : Nat) (s : Str), s.length < f → s.length < g →
      removeAllF f pat s = removeAllF g pat s := by
  intro f
  induction f with
  | zero =>
    intro g s hf
    omega
  | succ f ih =>
    intro g s hf hg
    cases g with
    | zero => omega
    | succ g =>
      cases s with
      | nil => rfl
      | cons c rest =>
        by_cases hcond : 0 < pat.length ∧ isPrefixB pat (c :: rest) = true
        · simp only [removeAllF, if_pos hcond]
          apply ih
          · simp only [List.length_drop, List.length_cons] at hf ⊢
            omega
          · simp only [List.length_drop, List.length_cons] at hg ⊢
            omega
        · simp only [removeAllF, if_neg hcond]
          simp only [List.length_cons] at hf hg
          rw [ih g rest (by omega) (by omega)]

theorem removeAllF_eq (pat s : Str) (f : Nat) (hf : s.length < f) :
    removeAllF f pat s = removeAll pat s :=
  removeAllF_congr pat f (s.length + 1) s hf (by omega)

/-- With no occurrence of the pattern, `str.replace` is the identity. -/
theorem removeAll_no_occurrence (pat s : Str)
    (h : containsSub pat s = false) : removeAll pat s = s := by
  induction s with
  | nil => rfl
  | cons c rest ih =>
    simp only [containsSub, Bool.or_eq_false_iff] at h
    have hcond : ¬(0 < pat.length ∧ isPrefixB pat (c :: rest) = true) := by
      rintro ⟨-, hpre⟩
      rw [h.1] at hpre
      exact Bool.noConfusion hpre
    show removeAllF (rest.length + 1 + 1) pat (c :: rest) = c :: rest
    rw [removeAllF, if_neg hcond,
      removeAllF_eq pat rest (rest.length + 1) (by omega), ih h.2]

/-- Removing the pattern from a string that starts with it continues on
the remainder. -/
theorem removeAll_cons_pattern (pat t : Str) (hpat : 0 < pat.length) :
    removeAll pat (pat ++ t) = removeAll pat t := by
  cases pat with
  | nil => simp at hpat
  | cons p0 ps =>
    have hcond : 0 < (p0 :: ps).length ∧
        isPrefixB (p0 :: ps) (p0 :: (ps ++ t)) = true := by
      constructor
      · simp
      · have := isPrefixB_append (p0 :: ps) t
        simpa using this
    show removeAllF ((p0 :: (ps ++ t)).length + 1) (p0 :: ps)
        (p0 :: (ps ++ t)) = removeAll (p0 :: ps) t
    rw [removeAllF, if_pos hcond]
    have hdrop : (p0 :: (ps ++ t)).drop (p0 :: ps).length = t := by
      have := List.drop_left (p0 :: ps) t
      simp only [List.cons_append] at this
      exact this
    rw [hdrop]
    exact removeAllF_eq (p0 :: ps) t _ (by simp [List.length_append]; omega)

/-! ## Facts about the `evaluate_answer` line scan -/

theorem foldl_scanLine_followup (ls : List Str) :
    ∀ acc : EvalParse,
      (ls.foldl scanLine acc).followup
        = (acc.followup || ls.any fun l => containsSub followupPat l) := by
  induction ls with
  | nil => intro acc; simp
  | cons l ls ih =>
    intro acc
    rw [List.foldl_cons, ih]
    simp [scanLine, Bool.or_assoc]

theorem foldl_scanLine_strength_skip (ls : List Str)
    (h : ∀ l ∈ ls, isPrefixB strengthLbl l = false) :
    ∀ acc : EvalParse, (ls.foldl scanLine acc).strength = acc.strength := by
  induction ls with
  | nil => intro acc; rfl
  | cons l ls ih =>
    intro acc
    rw [List.foldl_cons,
      ih (fun m hm => h m (List.mem_cons_of_mem _ hm))]
    simp [scanLine, h l (List.mem_cons_self l ls)]

theorem foldl_scanLine_weakness_skip (ls : List Str)
    (h : ∀ l ∈ ls, isPrefixB weaknessLbl l = false) :
    ∀ acc : EvalParse, (ls.foldl scanLine acc).weakness = acc.weakness := by
  induction ls with
  | nil => intro acc; rfl
  | cons l ls ih =>
    intro acc
    rw [List.foldl_cons,
      ih (fun m hm => h m (List.mem_cons_of_mem _ hm))]
    simp [scanLine, h l (List.mem_cons_self l ls)]

/-- The kept strength is the one extracted from the last line that starts
with `"strength"`. -/
theorem parseEval_strength_last (content l : Str) (L1 L2 : List Str)
    (hsplit : splitOnNl content = L1 ++ l :: L2)
    (hl : isPrefixB strengthLbl l = true)
    (h2 : ∀ m ∈ L2, isPrefixB strengthLbl m = false) :
    (parseEval content).strength = pyStrip (removeAll strengthColon l) := by
  rw [parseEval, hsplit, List.foldl_append, List.foldl_cons,
    foldl_scanLine_strength_skip L2 h2]
  simp [scanLine, hl]

/-- The kept weakness is the one extracted from the last line that starts
with `"weakness"`. -/
theorem parseEval_weakness_last (content l : Str) (L1 L2 : List Str)
    (hsplit : splitOnNl content = L1 ++ l :: L2)
    (hl : isPrefixB weaknessLbl l = true)
    (h2 : ∀ m ∈ L2, isPrefixB weaknessLbl m = false) :
    (parseEval content).weakness = pyStrip (removeAll weaknessColon l) := by
  rw [parseEval, hsplit, List.foldl_append, List.foldl_cons,
    foldl_scanLine_weakness_skip L2 h2]
  simp [scanLine, hl]

/-- No strength line at all leaves the kept strength empty. -/
theorem parseEval_strength_empty (content : Str)
    (h : ∀ l ∈ splitOnNl content, isPrefixB strengthLbl l = false) :
    (parseEval content).strength = [] := by
  rw [parseEval, foldl_scanLine_strength_skip _ h]

/-- No weakness line at all leaves the kept weakness empty. -/
theorem parseEval_weakness_empty (content : Str)
    (h : ∀ l ∈ splitOnNl content, isPrefixB weaknessLbl l = false) :
    (parseEval content).weakness = [] := by
  rw [parseEval, foldl_scanLine_weakness_skip _ h]

theorem parseEval_followup_iff (content : Str) :
    (parseEval content).followup = true ↔
      ∃ l ∈ splitOnNl content, containsSub followupPat l = true := by
  rw [parseEval, foldl_scanLine_followup]
  simp [List.any_eq_true]

/-- The follow-up flag is latched exactly when the lower-cased response
contains `"followup: yes"`. -/
theorem parseEval_followup_eq_contains (content : Str) :
    (parseEval content).followup = containsSub followupPat content := by
  by_cases h : containsSub followupPat content = true
  · rw [h]
    obtain ⟨l, hl, hcl⟩ :=
      containsSub_splitOnNl followupPat content (by decide) h
    exact (parseEval_followup_iff content).mpr ⟨l, hl, hcl⟩
  · rw [Bool.not_eq_true] at h
    rw [h]
    rw [← Bool.not_eq_true]
    intro habs
    obtain ⟨l, hl, hcl⟩ := (parseEval_followup_iff content).mp habs
    rw [containsSub_of_line followupPat content l hl hcl] at h
    exact Bool.noConfusion h

/-! ## Shape of `appendFindings` -/

theorem appendFindings_resume (p : EvalParse) (st : InterviewState) :
    (appendFindings p st).resume = st.resume := by
  rw [appendFindings]
  by_cases hs : p.strength = [] <;> by_cases hw : p.weakness = [] <;>
    simp [hs, hw]

theorem appendFindings_questions (p : EvalParse) (st : InterviewState) :
    (appendFindings p st).questions = st.questions := by
  rw [appendFindings]
  by_cases hs : p.strength = [] <;> by_cases hw : p.weakness = [] <;>
    simp [hs, hw]

theorem appendFindings_current_index (p : EvalParse) (st : InterviewState) :
    (appendFindings p st).current_index = st.current_index := by
  rw [appendFindings]
  by_cases hs : p.strength = [] <;> by_cases hw : p.weakness = [] <;>
    simp [hs, hw]

theorem appendFindings_answers (p : EvalParse) (st : InterviewState) :
    (appendFindings p st).answers = st.answers := by
  rw [appendFindings]
  by_cases hs : p.strength = [] <;> by_cases hw : p.weakness = [] <;>
    simp [hs, hw]

theorem appendFindings_messages (p : EvalParse) (st : InterviewState) :
    (appendFindings p st).messages = st.messages := by
  rw [appendFindings]
  by_cases hs : p.strength = [] <;> by_cases hw : p.weakness = [] <;>
    simp [hs, hw]

theorem appendFindings_strengths (p : EvalParse) (st : InterviewState) :
    (appendFindings p st).strengths
      = st.strengths ++ (if p.strength = [] then [] else [p.strength]) := by
  rw [appendFindings]
  by_cases hs : p.strength = [] <;> by_cases hw : p.weakness = [] <;>
    simp [hs, hw]

theorem appendFindings_weaknesses (p : EvalParse) (st : InterviewState) :
    (appendFindings p st).weaknesses
      = st.weaknesses ++ (if p.weakness = [] then [] else [p.weakness]) := by
  rw [appendFindings]
  by_cases hs : p.strength = [] <;> by_cases hw : p.weakness = [] <;>
    simp [hs, hw]

/-! ## Inversion principles for the two nodes -/

theorem generate_questions_inv (content : Str) (gq : GQResult)
    (h : generate_questions content = some gq) :
    gq.questions = (collectQuestions (splitOnNl content)).take 5 ∧
    gq.questions ≠ [] ∧ gq.current_index = 0 ∧
    gq.answers = [] ∧ gq.strengths = [] ∧ gq.weaknesses = [] ∧
    gq.messages = [(collectQuestions (splitOnNl content)).headI] := by
  rw [generate_questions] at h
  cases hq : collectQuestions (splitOnNl content) with
  | nil =>
    rw [hq] at h
    exact Option.noConfusion h
  | cons q0 qs =>
    rw [hq] at h
    simp only [Option.some.injEq] at h
    subst h
    simp [List.take_succ_cons]

theorem evaluate_answer_inv (st : InterviewState) (resp fresp : Str)
    (st' : InterviewState) (ret : EvalReturn)
    (h : evaluate_answer st resp fresp = some (st', ret)) :
    st.answers ≠ [] ∧ st.current_index < st.questions.length ∧
    st' = appendFindings (parseEval (lowerStr resp)) st ∧
    (((parseEval (lowerStr resp)).followup = true ∧
        ret = ⟨none, [pyStrip fresp]⟩) ∨
     ((parseEval (lowerStr resp)).followup = false ∧
        ((st.questions.length ≤ st.current_index + 1 ∧
            ret = ⟨some (st.current_index + 1), [interviewComplete]⟩) ∨
         (st.current_index + 1 < st.questions.length ∧
            ret = ⟨some (st.current_index + 1),
              [st.questions.getD (st.current_index + 1) []]⟩)))) := by
  by_cases hg : st.answers = [] ∨ st.questions.length ≤ st.current_index
  · rw [evaluate_answer, if_pos hg] at h
    exact Option.noConfusion h
  · rw [evaluate_answer, if_neg hg] at h
    push_neg at hg
    refine ⟨hg.1, hg.2, ?_⟩
    by_cases hf : (parseEval (lowerStr resp)).followup
    · simp only [hf, if_true, Option.some.injEq, Prod.mk.injEq] at h
      exact ⟨h.1.symm, Or.inl ⟨hf, h.2.symm⟩⟩
    · rw [Bool.not_eq_true] at hf
      simp only [hf, Bool.false_eq_true, if_false] at h
      by_cases hlen : st.questions.length ≤ st.current_index + 1
      · simp only [if_pos hlen, Option.some.injEq, Prod.mk.injEq] at h
        exact ⟨h.1.symm, Or.inr ⟨hf, Or.inl ⟨hlen, h.2.symm⟩⟩⟩
      · simp only [if_neg hlen, Option.some.injEq, Prod.mk.injEq] at h
        exact ⟨h.1.symm, Or.inr ⟨hf, Or.inr ⟨by omega, h.2.symm⟩⟩⟩

/-! ## Claim theorems -/

/-- C1: for every evaluation-model response whose text contains the
literal substring `"followup: yes"` (and for every session state on which
the call can run at all, i.e. with a recorded answer and an in-range
index), `evaluate_answer` returns the probing follow-up question produced
by the second model call as the next outbound message, without a
`current_index` key in the returned update, and the session state's
`current_index` is unchanged. -/
theorem C1_followup_returns_message_without_advance
    (st : InterviewState) (resp fresp : Str)
    (hans : st.answers ≠ []) (hidx : st.current_index < st.questions.length)
    (hsub : containsSub followupPat resp = true) :
    ∃ st', evaluate_answer st resp fresp
        = some (st', ⟨none, [pyStrip fresp]⟩) ∧
      st'.current_index = st.current_index := by
  have hlow : containsSub followupPat (lowerStr resp) = true :=
    containsSub_lowerStr _ _ (by decide) hsub
  have hf : (parseEval (lowerStr resp)).followup = true := by
    rw [parseEval_followup_eq_contains]
    exact hlow
  refine ⟨appendFindings (parseEval (lowerStr resp)) st, ?_, ?_⟩
  · rw [evaluate_answer, if_neg (by push_neg; exact ⟨hans, hidx⟩)]
    simp only [hf, if_true]
  · exact appendFindings_current_index _ _

/-- Session state used to exercise the claim theorems on concrete
inputs. -/
def wSt : InterviewState :=
  ⟨⟨[], [], 0, [], [], []⟩, ["Explain X".data, "Explain Y".data], 0,
    ["my answer".data], [], [], []⟩

theorem C1_witness :
    (wSt.answers ≠ [] ∧ wSt.current_index < wSt.questions.length ∧
      containsSub followupPat "followup: yes".data = true) ∧
    ∃ st', evaluate_answer wSt "followup: yes".data "  Probe deeper?  ".data
        = some (st', ⟨none, [pyStrip "  Probe deeper?  ".data]⟩) ∧
      st'.current_index = wSt.current_index :=
  ⟨⟨by decide, by decide, by decide⟩,
    C1_followup_returns_message_without_advance wSt "followup: yes".data
      "  Probe deeper?  ".data (by decide) (by decide) (by decide)⟩

/-- C2: when the evaluation response does not signal a follow-up (the
lower-cased text lacks `"followup: yes"`), `evaluate_answer` returns
`current_index` incremented by exactly one; the message is
`"Interview complete."` when the new index reaches the question count and
the question at the new index otherwise.  The second conjunct is the
spec's concrete example: questions `["Explain X", "Explain Y"]`, index 0,
a response without a follow-up signal, giving index 1 and message
`"Explain Y"`. -/
theorem C2_advance_to_next_question :
    (∀ (st : InterviewState) (resp fresp : Str),
      st.answers ≠ [] → st.current_index < st.questions.length →
      containsSub followupPat (lowerStr resp) = false →
      ∃ st', evaluate_answer st resp fresp
          = some (st',
              ⟨some (st.current_index + 1),
               [if st.questions.length ≤ st.current_index + 1 then
                  interviewComplete
                else st.questions.getD (st.current_index + 1) []]⟩)) ∧
    (∃ st', evaluate_answer wSt "FollowUp: no".data "".data
        = some (st', ⟨some 1, ["Explain Y".data]⟩)) := by
  have hgen : ∀ (st : InterviewState) (resp fresp : Str),
      st.answers ≠ [] → st.current_index < st.questions.length →
      containsSub followupPat (lowerStr resp) = false →
      ∃ st', evaluate_answer st resp fresp
          = some (st',
              ⟨some (st.current_index + 1),
               [if st.questions.length ≤ st.current_index + 1 then
                  interviewComplete
                else st.questions.getD (st.current_index + 1) []]⟩) := by
    intro st resp fresp hans hidx hnosub
    have hf : (parseEval (lowerStr resp)).followup = false := by
      rw [parseEval_followup_eq_contains]
      exact hnosub
    refine ⟨appendFindings (parseEval (lowerStr resp)) st, ?_⟩
    rw [evaluate_answer, if_neg (by push_neg; exact ⟨hans, hidx⟩)]
    simp only [hf, Bool.false_eq_true, if_false]
    by_cases hlen : st.questions.length ≤ st.current_index + 1
    · simp only [if_pos hlen]
    · simp only [if_neg hlen]
  refine ⟨hgen, ?_⟩
  obtain ⟨st', h⟩ := hgen wSt "FollowUp: no".data "".data
    (by decide) (by decide) (by decide)
  exact ⟨st', by simpa using h⟩

theorem C2_witness :
    (wSt.answers ≠ [] ∧ wSt.current_index < wSt.questions.length ∧
      containsSub followupPat (lowerStr "FollowUp: no".data) = false) ∧
    ∃ st', evaluate_answer wSt "FollowUp: no".data "".data
        = some (st', ⟨some 1, ["Explain Y".data]⟩) :=
  ⟨⟨by decide, by decide, by decide⟩, C2_advance_to_next_question.2⟩

/-- C3: `evaluate_answer` never decrements `current_index`: the index
obtained by merging the returned update into the session state is at
least the index before the call, and the in-place part of the state keeps
the index unchanged. -/
theorem C3_index_never_decremented (st : InterviewState) (resp fresp : Str)
    (st' : InterviewState) (ret : EvalReturn)
    (h : evaluate_answer st resp fresp = some (st', ret)) :
    st.current_index ≤ (applyRet st' ret).current_index ∧
    st'.current_index = st.current_index := by
  obtain ⟨-, -, hst, hret⟩ := evaluate_answer_inv st resp fresp st' ret h
  have hidx : st'.current_index = st.current_index := by
    rw [hst]
    exact appendFindings_current_index _ _
  refine ⟨?_, hidx⟩
  rcases hret with ⟨-, rfl⟩ | ⟨-, hcase⟩
  · simp [applyRet, hidx]
  · rcases hcase with ⟨-, rfl⟩ | ⟨-, rfl⟩ <;> simp [applyRet]

theorem C3_witness :
    (evaluate_answer wSt "FollowUp: no".data "".data
        = some (wSt, ⟨some 1, ["Explain Y".data]⟩)) ∧
    wSt.current_index ≤ (applyRet wSt ⟨some 1, ["Explain Y".data]⟩).current_index ∧
    wSt.current_index = wSt.current_index :=
  ⟨by decide,
    C3_index_never_decremented wSt "FollowUp: no".data "".data wSt
      ⟨some 1, ["Explain Y".data]⟩ (by decide)⟩

theorem applyRet_none (s : InterviewState) (msgs : List Str) :
    applyRet s ⟨none, msgs⟩ = s := rfl

theorem applyRet_some (s : InterviewState) (i : Nat) (msgs : List Str) :
    applyRet s ⟨some i, msgs⟩ = { s with current_index := i } := rfl

theorem applyRet_questions (s : InterviewState) (ret : EvalReturn) :
    (applyRet s ret).questions = s.questions := by
  cases ret with
  | mk ci msgs => cases ci <;> rfl

/-- C4: in every session state reachable by the runner loop, the current
index never exceeds the number of questions; it equals that number only
together with the terminal `"Interview complete."` message; and from such
a terminal state no further loop step (hence no index increment) is
possible, because `evaluate_answer` refuses an index at the question
count. -/
theorem C4_reachable_index_invariant (p : InterviewState × List Str)
    (hp : Reach p) :
    p.1.current_index ≤ p.1.questions.length ∧
    (p.1.current_index = p.1.questions.length → p.2 = [interviewComplete]) ∧
    (p.1.current_index = p.1.questions.length → ∀ q, ¬ LoopStep p q) := by
  have key : ∀ r, Reach r → r.1.current_index ≤ r.1.questions.length ∧
      (r.1.current_index = r.1.questions.length → r.2 = [interviewComplete]) := by
    intro r hr
    induction hr with
    | init resume content gq hgq =>
      obtain ⟨-, hne, -, -, -, -, -⟩ := generate_questions_inv content gq hgq
      constructor
      · simp [initState]
      · intro h0
        exfalso
        have hlen : gq.questions.length = 0 := by
          simpa [initState] using h0.symm
        exact hne (List.length_eq_zero.mp hlen)
    | step p' q' hpR hq ih =>
      obtain ⟨ans, resp, fresp, s', ret, heval, rfl⟩ := hq
      obtain ⟨-, hidx, hst, hret⟩ := evaluate_answer_inv _ _ _ _ _ heval
      have hsmodi : ({ p'.1 with answers := p'.1.answers ++ [ans] }
          : InterviewState).current_index = p'.1.current_index := rfl
      have hsmodq : ({ p'.1 with answers := p'.1.answers ++ [ans] }
          : InterviewState).questions = p'.1.questions := rfl
      rw [hsmodi, hsmodq] at hidx
      have hsq : s'.questions = p'.1.questions := by
        rw [hst, appendFindings_questions, hsmodq]
      have hsi : s'.current_index = p'.1.current_index := by
        rw [hst, appendFindings_current_index, hsmodi]
      rcases hret with ⟨-, rfl⟩ | ⟨-, hcase⟩
      · rw [applyRet_none]
        constructor
        · rw [hsq, hsi]
          omega
        · intro heq
          rw [hsq, hsi] at heq
          omega
      · rcases hcase with ⟨hlen, rfl⟩ | ⟨hlt, rfl⟩
        · rw [hsmodq, hsmodi] at hlen
          rw [applyRet_some]
          refine ⟨?_, fun _ => rfl⟩
          have hqi : ({ s' with current_index :=
              ({ p'.1 with answers := p'.1.answers ++ [ans] }
                : InterviewState).current_index + 1 }
              : InterviewState).current_index = p'.1.current_index + 1 := rfl
          have hqq : ({ s' with current_index :=
              ({ p'.1 with answers := p'.1.answers ++ [ans] }
                : InterviewState).current_index + 1 }
              : InterviewState).questions = s'.questions := rfl
          rw [hqi, hqq, hsq]
          omega
        · rw [hsmodq, hsmodi] at hlt
          rw [applyRet_some]
          have hqi : ({ s' with current_index :=
              ({ p'.1 with answers := p'.1.answers ++ [ans] }
                : InterviewState).current_index + 1 }
              : InterviewState).current_index = p'.1.current_index + 1 := rfl
          have hqq : ({ s' with current_index :=
              ({ p'.1 with answers := p'.1.answers ++ [ans] }
                : InterviewState).current_index + 1 }
              : InterviewState).questions = s'.questions := rfl
          constructor
          · rw [hqi, hqq, hsq]
            omega
          · intro heq
            rw [hqi, hqq, hsq] at heq
            omega
  refine ⟨(key p hp).1, (key p hp).2, ?_⟩
  intro hterm q hstep
  obtain ⟨ans, resp, fresp, s', ret, heval, -⟩ := hstep
  obtain ⟨-, hidx, -, -⟩ := evaluate_answer_inv _ _ _ _ _ heval
  have hidx' : p.1.current_index < p.1.questions.length := hidx
  omega

/-- Resume record used by the concrete witnesses. -/
def wResume : ResumeRec := ⟨[], [], 0, [], [], []⟩

/-- Question-generation result used by the C4 witness. -/
def w4Gq : GQResult := ⟨["Hello".data], 0, [], [], [], ["Hello".data]⟩

theorem C4_witness :
    (generate_questions "1. Hello".data = some w4Gq) ∧
    ((initState wResume w4Gq).current_index
        ≤ (initState wResume w4Gq).questions.length ∧
      ((initState wResume w4Gq).current_index
          = (initState wResume w4Gq).questions.length →
        w4Gq.messages = [interviewComplete]) ∧
      ((initState wResume w4Gq).current_index
          = (initState wResume w4Gq).questions.length →
        ∀ q, ¬ LoopStep (initState wResume w4Gq, w4Gq.messages) q)) :=
  ⟨by decide,
    C4_reachable_index_invariant (initState wResume w4Gq, w4Gq.messages)
      (Reach.init wResume "1. Hello".data w4Gq (by decide))⟩

/-- C9: one call to `evaluate_answer` appends at most one element to
`strengths` and at most one to `weaknesses`; and when a line of the
lower-cased response starts with `"strength"` (resp. `"weakness"`) and no
later line does, the element appended (when the extracted value is
non-empty) is exactly the value extracted from that last such line —
earlier matching lines are overwritten. -/
theorem C9_last_label_line_wins (st : InterviewState) (resp fresp : Str)
    (st' : InterviewState) (ret : EvalReturn)
    (h : evaluate_answer st resp fresp = some (st', ret)) :
    st'.strengths.length ≤ st.strengths.length + 1 ∧
    st'.weaknesses.length ≤ st.weaknesses.length + 1 ∧
    (∀ (l : Str) (L1 L2 : List Str),
      splitOnNl (lowerStr resp) = L1 ++ l :: L2 →
      isPrefixB strengthLbl l = true →
      (∀ m ∈ L2, isPrefixB strengthLbl m = false) →
      st'.strengths = st.strengths ++
        (if pyStrip (removeAll strengthColon l) = [] then []
         else [pyStrip (removeAll strengthColon l)])) ∧
    (∀ (l : Str) (L1 L2 : List Str),
      splitOnNl (lowerStr resp) = L1 ++ l :: L2 →
      isPrefixB weaknessLbl l = true →
      (∀ m ∈ L2, isPrefixB weaknessLbl m = false) →
      st'.weaknesses = st.weaknesses ++
        (if pyStrip (removeAll weaknessColon l) = [] then []
         else [pyStrip (removeAll weaknessColon l)])) := by
  obtain ⟨-, -, hst, -⟩ := evaluate_answer_inv st resp fresp st' ret h
  subst hst
  refine ⟨?_, ?_, ?_, ?_⟩
  · rw [appendFindings_strengths]
    by_cases hs : (parseEval (lowerStr resp)).strength = [] <;> simp [hs]
  · rw [appendFindings_weaknesses]
    by_cases hw : (parseEval (lowerStr resp)).weakness = [] <;> simp [hw]
  · intro l L1 L2 hsplit hl h2
    rw [appendFindings_strengths,
      parseEval_strength_last (lowerStr resp) l L1 L2 hsplit hl h2]
  · intro l L1 L2 hsplit hl h2
    rw [appendFindings_weaknesses,
      parseEval_weakness_last (lowerStr resp) l L1 L2 hsplit hl h2]

/-- Evaluation response with two strength lines, for the C7 and C9
concrete inputs. -/
def twoStrengthResp : Str := "strength: a\nstrength: b".data

/-- Session state produced by `evaluate_answer` on `twoStrengthResp`. -/
def w9St : InterviewState := { wSt with strengths := ["b".data] }

theorem C9_witness :
    (evaluate_answer wSt twoStrengthResp "".data
        = some (w9St, ⟨some 1, ["Explain Y".data]⟩)) ∧
    w9St.strengths = wSt.strengths ++ [pyStrip (removeAll strengthColon
      "strength: b".data)] := by
  refine ⟨by decide, ?_⟩
  have h9 := (C9_last_label_line_wins wSt twoStrengthResp "".data w9St
    ⟨some 1, ["Explain Y".data]⟩ (by decide)).2.2.1
  have := h9 "strength: b".data ["strength: a".data] []
    (by decide) (by decide) (by decide)
  rw [if_neg (by decide)] at this
  exact this

/-- C10: whenever the evaluation response signals a follow-up, the
returned update carries no `current_index` key and only the follow-up
question as outbound message, and the session state's `resume`,
`questions`, `answers` and `current_index` are untouched — only
`strengths` and `weaknesses` may each gain at most one element. -/
theorem C10_followup_frame (st : InterviewState) (resp fresp : Str)
    (st' : InterviewState) (ret : EvalReturn)
    (h : evaluate_answer st resp fresp = some (st', ret))
    (hf : containsSub followupPat (lowerStr resp) = true) :
    ret.current_index? = none ∧ ret.messages = [pyStrip fresp] ∧
    st'.resume = st.resume ∧ st'.questions = st.questions ∧
    st'.answers = st.answers ∧ st'.current_index = st.current_index ∧
    (st'.strengths = st.strengths ∨ ∃ v, st'.strengths = st.strengths ++ [v]) ∧
    (st'.weaknesses = st.weaknesses ∨
      ∃ v, st'.weaknesses = st.weaknesses ++ [v]) := by
  obtain ⟨-, -, hst, hret⟩ := evaluate_answer_inv st resp fresp st' ret h
  have hflag : (parseEval (lowerStr resp)).followup = true := by
    rw [parseEval_followup_eq_contains]
    exact hf
  rcases hret with ⟨-, rfl⟩ | ⟨hfalse, -⟩
  · subst hst
    refine ⟨rfl, rfl, appendFindings_resume _ _, appendFindings_questions _ _,
      appendFindings_answers _ _, appendFindings_current_index _ _, ?_, ?_⟩
    · rw [appendFindings_strengths]
      by_cases hs : (parseEval (lowerStr resp)).strength = []
      · exact Or.inl (by simp [hs])
      · exact Or.inr ⟨(parseEval (lowerStr resp)).strength, by simp [hs]⟩
    · rw [appendFindings_weaknesses]
      by_cases hw : (parseEval (lowerStr resp)).weakness = []
      · exact Or.inl (by simp [hw])
      · exact Or.inr ⟨(parseEval (lowerStr resp)).weakness, by simp [hw]⟩
  · rw [hflag] at hfalse
    exact Bool.noConfusion hfalse

theorem C10_witness :
    (evaluate_answer wSt "followup: yes".data "probe".data
        = some (wSt, ⟨none, ["probe".data]⟩) ∧
      containsSub followupPat (lowerStr "followup: yes".data) = true) ∧
    ((⟨none, ["probe".data]⟩ : EvalReturn).current_index? = none ∧
      (⟨none, ["probe".data]⟩ : EvalReturn).messages
        = [pyStrip "probe".data] ∧
      wSt.resume = wSt.resume ∧ wSt.questions = wSt.questions ∧
      wSt.answers = wSt.answers ∧ wSt.current_index = wSt.current_index ∧
      (wSt.strengths = wSt.strengths ∨
        ∃ v, wSt.strengths = wSt.strengths ++ [v]) ∧
      (wSt.weaknesses = wSt.weaknesses ∨
        ∃ v, wSt.weaknesses = wSt.weaknesses ++ [v])) :=
  ⟨⟨by decide, by decide⟩,
    C10_followup_frame wSt "followup: yes".data "probe".data wSt
      ⟨none, ["probe".data]⟩ (by decide) (by decide)⟩

/-! ## The question-line parser claims -/

theorem collectQuestions_eq_filter (ls : List Str) :
    collectQuestions ls = (ls.map cleanLine).filter (fun q => q ≠ []) := by
  induction ls with
  | nil => rfl
  | cons l ls ih =>
    by_cases h : cleanLine l = [] <;>
      simp [collectQuestions, h, ih, List.filter_cons]

theorem mem_collectQuestions (ls : List Str) (q : Str)
    (hq : q ∈ collectQuestions ls) : ∃ l ∈ ls, q = cleanLine l := by
  induction ls with
  | nil => exact absurd hq (by simp [collectQuestions])
  | cons l ls ih =>
    by_cases h : cleanLine l = []
    · rw [collectQuestions, if_pos h] at hq
      obtain ⟨m, hm, hqm⟩ := ih hq
      exact ⟨m, List.mem_cons_of_mem _ hm, hqm⟩
    · rw [collectQuestions, if_neg h] at hq
      rcases List.mem_cons.mp hq with rfl | hq'
      · exact ⟨l, List.mem_cons_self l ls, rfl⟩
      · obtain ⟨m, hm, hqm⟩ := ih hq'
        exact ⟨m, List.mem_cons_of_mem _ hm, hqm⟩

theorem collectQuestions_all_empty (ls : List Str)
    (h : ∀ l ∈ ls, cleanLine l = []) : collectQuestions ls = [] := by
  induction ls with
  | nil => rfl
  | cons l ls ih =>
    rw [collectQuestions, if_pos (h l (List.mem_cons_self l ls))]
    exact ih (fun m hm => h m (List.mem_cons_of_mem _ hm))

/-- C5: the questions kept by `generate_questions` are at most five, and
they are exactly the first five lines of the model response that are
non-empty after cleaning. -/
theorem C5_questions_first_five (content : Str) (gq : GQResult)
    (h : generate_questions content = some gq) :
    gq.questions.length ≤ 5 ∧
    gq.questions
      = (((splitOnNl content).map cleanLine).filter (fun q => q ≠ [])).take 5 := by
  obtain ⟨hqs, -⟩ := generate_questions_inv content gq h
  refine ⟨?_, ?_⟩
  · rw [hqs, List.length_take]
    exact Nat.min_le_left _ _
  · rw [hqs, collectQuestions_eq_filter]

/-- Model response with seven parsable lines, exercising the cut at
five. -/
def sevenLines : Str := "1. a\n2. b\n3. c\n4. d\n5. e\n1. f\n2. g".data

/-- Question-generation result on `sevenLines`. -/
def w5Gq : GQResult :=
  ⟨["a".data, "b".data, "c".data, "d".data, "e".data], 0, [], [], [],
    ["a".data]⟩

theorem C5_witness :
    (generate_questions sevenLines = some w5Gq) ∧
    (w5Gq.questions.length ≤ 5 ∧
      w5Gq.questions
        = (((splitOnNl sevenLines).map cleanLine).filter
            (fun q => q ≠ [])).take 5) :=
  ⟨by decide, C5_questions_first_five sevenLines w5Gq (by decide)⟩

/-- C6 is false as stated: `str.strip("12345. ")` removes only the digits
one to five, a period and a space, so questions can begin with other
digits, and a leading tab that is stripped later can expose a digit or a
period.  On the response `"\t1. Foo\n6. Bar\n\t.dotfile"` the parser
emits questions beginning with `'1'`, `'6'` and `'.'`. -/
theorem C6_counterexample :
    generate_questions "\t1. Foo\n6. Bar\n\t.dotfile".data
      = some ⟨["1. Foo".data, "6. Bar".data, ".dotfile".data], 0, [], [], [],
          ["1. Foo".data]⟩ ∧
    "1. Foo".data.head? = some '1' ∧ '1'.isDigit = true ∧
    "6. Bar".data.head? = some '6' ∧ '6'.isDigit = true ∧
    ".dotfile".data.head? = some '.' := by decide

/-- C6 (amended): every question emitted by the parser begins with a
non-whitespace character — the final `str.strip()` guarantees that much —
while leading numerals and periods may survive. -/
theorem C6_no_leading_whitespace (content : Str) (gq : GQResult)
    (h : generate_questions content = some gq)
    (q : Str) (hq : q ∈ gq.questions) (c : Char) (hc : q.head? = some c) :
    c.isWhitespace = false := by
  obtain ⟨hqs, -⟩ := generate_questions_inv content gq h
  rw [hqs] at hq
  have hmem : q ∈ collectQuestions (splitOnNl content) :=
    List.take_subset _ _ hq
  obtain ⟨l, -, rfl⟩ := mem_collectQuestions _ q hmem
  cases hc' : cleanLine l with
  | nil =>
    rw [hc'] at hc
    exact Option.noConfusion hc
  | cons c0 t =>
    have hc0 : c0 = c := by
      rw [hc'] at hc
      simpa using hc
    subst hc0
    exact stripWith_head Char.isWhitespace (stripNum l) c0 t hc'

theorem C6_witness :
    (generate_questions "1. Hello".data = some w4Gq ∧
      "Hello".data ∈ w4Gq.questions ∧ "Hello".data.head? = some 'H') ∧
    'H'.isWhitespace = false :=
  ⟨⟨by decide, by decide, by decide⟩,
    C6_no_leading_whitespace "1. Hello".data w4Gq (by decide) "Hello".data
      (by decide) 'H' (by decide)⟩

/-- C8: a model response all of whose lines are empty after cleaning
yields an empty questions sequence, and `generate_questions` then fails
(`questions[0]` raises `IndexError`, modelled as `none`). -/
theorem C8_empty_parse_fails (content : Str)
    (h : ∀ l ∈ splitOnNl content, cleanLine l = []) :
    collectQuestions (splitOnNl content) = [] ∧
    generate_questions content = none := by
  have hc := collectQuestions_all_empty _ h
  refine ⟨hc, ?_⟩
  rw [generate_questions]
  simp only [hc]

theorem C8_witness :
    (∀ l ∈ splitOnNl "12345. \n\t ".data, cleanLine l = []) ∧
    (collectQuestions (splitOnNl "12345. \n\t ".data) = [] ∧
      generate_questions "12345. \n\t ".data = none) :=
  ⟨by decide, C8_empty_parse_fails "12345. \n\t ".data (by decide)⟩

/-- C7 is false as stated: when several lines start with the same label,
earlier values are overwritten and only the last one is appended.  On
`"strength: a\nstrength: b"` the line `"strength: a"` is prefixed exactly
`"strength:"` with non-empty remainder `" a"`, yet its trimmed remainder
`"a"` is not in the resulting strengths sequence. -/
theorem C7_counterexample :
    (evaluate_answer wSt twoStrengthResp "".data
        = some (w9St, ⟨some 1, ["Explain Y".data]⟩)) ∧
    pyStrip " a".data = "a".data ∧
    "a".data ∉ w9St.strengths := by decide

/-- C7 (amended): a line of the lower-cased response of the exact form
`"strength:"` (resp. `"weakness:"`) followed by text that is non-empty
after trimming does appear, trimmed, appended to the strengths (resp.
weaknesses) sequence, provided it is the last line beginning with the
label and the remainder contains no further occurrence of the
label-with-colon (which `str.replace` would also delete). -/
theorem C7_label_line_roundtrip (st : InterviewState) (resp fresp : Str)
    (st' : InterviewState) (ret : EvalReturn)
    (h : evaluate_answer st resp fresp = some (st', ret)) :
    (∀ (t : Str) (L1 L2 : List Str),
      splitOnNl (lowerStr resp) = L1 ++ (strengthColon ++ t) :: L2 →
      (∀ m ∈ L2, isPrefixB strengthLbl m = false) →
      containsSub strengthColon t = false →
      pyStrip t ≠ [] →
      st'.strengths = st.strengths ++ [pyStrip t]) ∧
    (∀ (t : Str) (L1 L2 : List Str),
      splitOnNl (lowerStr resp) = L1 ++ (weaknessColon ++ t) :: L2 →
      (∀ m ∈ L2, isPrefixB weaknessLbl m = false) →
      containsSub weaknessColon t = false →
      pyStrip t ≠ [] →
      st'.weaknesses = st.weaknesses ++ [pyStrip t]) := by
  obtain ⟨-, -, hst, -⟩ := evaluate_answer_inv st resp fresp st' ret h
  subst hst
  constructor
  · intro t L1 L2 hsplit h2 hno hne
    have hpre : isPrefixB strengthLbl (strengthColon ++ t) = true := by
      have hsc : strengthColon ++ t = strengthLbl ++ (':' :: t) := rfl
      rw [hsc]
      exact isPrefixB_append _ _
    have hval : pyStrip (removeAll strengthColon (strengthColon ++ t))
        = pyStrip t := by
      rw [removeAll_cons_pattern _ _ (by decide),
        removeAll_no_occurrence _ _ hno]
    rw [appendFindings_strengths,
      parseEval_strength_last _ _ _ _ hsplit hpre h2, hval, if_neg hne]
  · intro t L1 L2 hsplit h2 hno hne
    have hpre : isPrefixB weaknessLbl (weaknessColon ++ t) = true := by
      have hwc : weaknessColon ++ t = weaknessLbl ++ (':' :: t) := rfl
      rw [hwc]
      exact isPrefixB_append _ _
    have hval : pyStrip (removeAll weaknessColon (weaknessColon ++ t))
        = pyStrip t := by
      rw [removeAll_cons_pattern _ _ (by decide),
        removeAll_no_occurrence _ _ hno]
    rw [appendFindings_weaknesses,
      parseEval_weakness_last _ _ _ _ hsplit hpre h2, hval, if_neg hne]

/-- Session state produced by `evaluate_answer` on a response with one
strength and one weakness line. -/
def w7St : InterviewState :=
  { wSt with strengths := ["good".data], weaknesses := ["vague".data] }

theorem C7_witness :
    (evaluate_answer wSt "strength: good\nweakness: vague".data "".data
        = some (w7St, ⟨some 1, ["Explain Y".data]⟩)) ∧
    w7St.strengths = wSt.strengths ++ [pyStrip " good".data] := by
  refine ⟨by decide, ?_⟩
  exact (C7_label_line_roundtrip wSt "strength: good\nweakness: vague".data
      "".data w7St ⟨some 1, ["Explain Y".data]⟩ (by decide)).1
    " good".data [] ["weakness: vague".data]
    (by decide) (by decide) (by decide) (by decide)

end Interviewer
